import Mathlib

/-!
Verification of the reader_assistant repository's core contracts.

Strings manipulated by index are embedded as `List Char`; Python exceptions
become `Except` errors; real-time side effects (sleeps, provider calls) become
an explicit event trace.
-/

namespace ReaderAssistant

/-! ## JSON Extraction Utility (src/src/utils/string.py) -/

/-- Error taxonomy of `extract_json_array`: the `TypeError` for non-string input
and the three `ValueError` cases, under the spec's names. -/
inductive ExtractErr where
  | NotAString
  | EmptyInput
  | NoBracketsFound
  | MalformedRange
deriving DecidableEq, Repr

/-- A Python value handed to `extract_json_array`: either a string (a list of
characters) or any non-string value. -/
inductive PyVal where
  | str (s : List Char)
  | nonStr
deriving DecidableEq, Repr

/-- Python `str.rfind(c)`: index of the last occurrence of `c`, if any. -/
def rfindIdx (c : Char) (s : List Char) : Option Nat :=
  match s.reverse.findIdx? (fun x => x == c) with
  | none => none
  | some j => some (s.length - 1 - j)

/-- Shallow embedding of `extract_json_array` (src/src/utils/string.py,
lines 20-41): type check, emptiness check, `find('[')` / `rfind(']')` checks,
then the slice `json_str[start_idx:end_idx + 1]`. -/
def extract_json_array : PyVal → Except ExtractErr (List Char)
  | PyVal.nonStr => Except.error ExtractErr.NotAString
  | PyVal.str s =>
    if s = [] then Except.error ExtractErr.EmptyInput
    else
      match s.findIdx? (fun x => x == '['), rfindIdx ']' s with
      | some st, some en =>
        if en ≤ st then Except.error ExtractErr.MalformedRange
        else Except.ok ((s.drop st).take (en + 1 - st))
      | some _, none => Except.error ExtractErr.NoBracketsFound
      | none, _ => Except.error ExtractErr.NoBracketsFound

theorem rfindIdx_some {c : Char} {s : List Char} {en : Nat}
    (h : rfindIdx c s = some en) : en < s.length ∧ s[en]? = some c := by
  unfold rfindIdx at h
  rcases hj : s.reverse.findIdx? (fun x => x == c) with _ | j
  · rw [hj] at h; exact absurd h (by simp)
  · rw [hj] at h
    rcases List.findIdx?_eq_some_iff_getElem.mp hj with ⟨hlt, hp, _⟩
    have hlt' : j < s.length := by simpa using hlt
    have hen : en = s.length - 1 - j := by simpa using h.symm
    subst hen
    have hrev := List.getElem_reverse (l := s) (i := j) (by simpa using hlt)
    rw [hrev] at hp
    refine ⟨by omega, ?_⟩
    rw [List.getElem?_eq_getElem (by omega)]
    simpa using hp

theorem findIdx_some {c : Char} {s : List Char} {st : Nat}
    (h : s.findIdx? (fun x => x == c) = some st) :
    st < s.length ∧ s[st]? = some c := by
  rcases List.findIdx?_eq_some_iff_getElem.mp h with ⟨hlt, hp, _⟩
  refine ⟨hlt, ?_⟩
  rw [List.getElem?_eq_getElem hlt]
  simpa using hp

theorem rfindIdx_none_iff {c : Char} {s : List Char} :
    rfindIdx c s = none ↔ c ∉ s := by
  have h1 : rfindIdx c s = none ↔ s.reverse.findIdx? (fun x => x == c) = none := by
    unfold rfindIdx
    rcases hj : s.reverse.findIdx? (fun x => x == c) with _ | j <;> simp
  rw [h1, List.findIdx?_eq_none_iff]
  constructor
  · intro h hc
    have := h c (by simpa using hc)
    simp at this
  · intro h x hx
    have hxs : x ∈ s := by simpa using hx
    have hne : x ≠ c := fun he => h (he ▸ hxs)
    simpa using hne

theorem findIdx_none_iff {c : Char} {s : List Char} :
    s.findIdx? (fun x => x == c) = none ↔ c ∉ s := by
  rw [List.findIdx?_eq_none_iff]
  constructor
  · intro h hc
    have := h c hc
    simp at this
  · intro h x hx
    by_contra hb
    have : x = c := by simpa using hb
    exact h (this ▸ hx)

/-- Facts about the extracted slice `json_str[start_idx:end_idx + 1]`. -/
theorem slice_props {s : List Char} {st en : Nat}
    (hst : s.findIdx? (fun x => x == '[') = some st)
    (hen : rfindIdx ']' s = some en) (hlt : st < en) :
    ((s.drop st).take (en + 1 - st)).length = en + 1 - st
    ∧ ((s.drop st).take (en + 1 - st))[0]? = some '['
    ∧ ((s.drop st).take (en + 1 - st)).getLast? = some ']'
    ∧ s.take st ++ (s.drop st).take (en + 1 - st) ++ s.drop (en + 1) = s := by
  obtain ⟨hstlt, hstc⟩ := findIdx_some hst
  obtain ⟨henlt, henc⟩ := rfindIdx_some hen
  have hlen : ((s.drop st).take (en + 1 - st)).length = en + 1 - st := by
    rw [List.length_take, List.length_drop]
    omega
  have hget : ∀ i, i < en + 1 - st → ((s.drop st).take (en + 1 - st))[i]? = s[st + i]? := by
    intro i hi
    rw [List.getElem?_take_of_lt hi, List.getElem?_drop]
  refine ⟨hlen, ?_, ?_, ?_⟩
  · rw [hget 0 (by omega)]
    simpa using hstc
  · rw [List.getLast?_eq_getElem?, hlen]
    have : en + 1 - st - 1 = en - st := by omega
    rw [this, hget (en - st) (by omega)]
    have : st + (en - st) = en := by omega
    rw [this]
    exact henc
  · rw [List.append_assoc]
    have h2 : (s.drop st).drop (en + 1 - st) = s.drop (en + 1) := by
      rw [List.drop_drop]
      congr 1
      omega
    have h1 : (s.drop st).take (en + 1 - st) ++ s.drop (en + 1) = s.drop st := by
      rw [← h2, List.take_append_drop]
    rw [h1, List.take_append_drop]

/-- C3: for every string input containing a `[` and a `]` with the first `[`
strictly before the last `]`, `extract_json_array` succeeds and returns exactly
the contiguous substring of the input delimited by the first `[` and the last
`]`, inclusive of both brackets: the result is a slice that begins with `[`,
ends with `]`, spans positions `st` to `en`, and the input decomposes as
prefix ++ result ++ suffix around it. -/
theorem extract_returns_bracket_delimited_substring (s : List Char) (st en : Nat)
    (hst : s.findIdx? (fun x => x == '[') = some st)
    (hen : rfindIdx ']' s = some en) (hlt : st < en) :
    extract_json_array (PyVal.str s) = Except.ok ((s.drop st).take (en + 1 - st))
    ∧ ((s.drop st).take (en + 1 - st)).length = en + 1 - st
    ∧ ((s.drop st).take (en + 1 - st))[0]? = some '['
    ∧ ((s.drop st).take (en + 1 - st)).getLast? = some ']'
    ∧ s.take st ++ (s.drop st).take (en + 1 - st) ++ s.drop (en + 1) = s := by
  obtain ⟨hlen, h0, hL, hdec⟩ := slice_props hst hen hlt
  refine ⟨?_, hlen, h0, hL, hdec⟩
  have hne : s ≠ [] := by
    intro he
    rw [he] at hst
    simp at hst
  have hred : extract_json_array (PyVal.str s)
      = if s = [] then Except.error ExtractErr.EmptyInput
        else if en ≤ st then Except.error ExtractErr.MalformedRange
        else Except.ok ((s.drop st).take (en + 1 - st)) := by
    simp only [extract_json_array, hst, hen]
  rw [hred, if_neg hne, if_neg (by omega)]

/-- C3 witness: `extract("noise [1,2,3] trailing")` returns `"[1,2,3]"`. -/
theorem extract_returns_bracket_delimited_substring_witness :
    extract_json_array (PyVal.str (String.toList "noise [1,2,3] trailing")) =
      Except.ok (String.toList "[1,2,3]") := by
  have h := (extract_returns_bracket_delimited_substring
    (String.toList "noise [1,2,3] trailing") 6 12 (by decide) (by decide)
    (by decide)).1
  exact h.trans (by rfl)

theorem mem_of_findIdx {c : Char} {s : List Char} {st : Nat}
    (h : s.findIdx? (fun x => x == c) = some st) : c ∈ s := by
  obtain ⟨hlt, hc⟩ := findIdx_some h
  have he : s[st] = c := by
    rw [List.getElem?_eq_getElem hlt] at hc
    simpa using hc
  exact he ▸ List.getElem_mem hlt

theorem mem_of_rfindIdx {c : Char} {s : List Char} {en : Nat}
    (h : rfindIdx c s = some en) : c ∈ s := by
  obtain ⟨hlt, hc⟩ := rfindIdx_some h
  have he : s[en] = c := by
    rw [List.getElem?_eq_getElem hlt] at hc
    simpa using hc
  exact he ▸ List.getElem_mem hlt

/-- Exhaustive case split of `extract_json_array` on a string input, following
the order of the checks in the source. -/
theorem extract_str_cases (s : List Char) :
    (s = [] ∧ extract_json_array (PyVal.str s) = Except.error ExtractErr.EmptyInput)
    ∨ (s ≠ [] ∧ (s.findIdx? (fun x => x == '[') = none ∨ rfindIdx ']' s = none)
        ∧ extract_json_array (PyVal.str s) = Except.error ExtractErr.NoBracketsFound)
    ∨ (s ≠ [] ∧ ∃ st en, s.findIdx? (fun x => x == '[') = some st ∧ rfindIdx ']' s = some en
        ∧ en ≤ st ∧ extract_json_array (PyVal.str s) = Except.error ExtractErr.MalformedRange)
    ∨ (s ≠ [] ∧ ∃ st en, s.findIdx? (fun x => x == '[') = some st ∧ rfindIdx ']' s = some en
        ∧ st < en
        ∧ extract_json_array (PyVal.str s) = Except.ok ((s.drop st).take (en + 1 - st))) := by
  by_cases hs : s = []
  · left
    exact ⟨hs, by simp [extract_json_array, hs]⟩
  · rcases hst : s.findIdx? (fun x => x == '[') with _ | st
    · right; left
      exact ⟨hs, Or.inl rfl, by simp [extract_json_array, hs, hst]⟩
    · rcases hen : rfindIdx ']' s with _ | en
      · right; left
        exact ⟨hs, Or.inr rfl, by simp [extract_json_array, hs, hst, hen]⟩
      · by_cases hle : en ≤ st
        · right; right; left
          exact ⟨hs, st, en, rfl, rfl, hle,
            by simp [extract_json_array, hs, hst, hen, hle]⟩
        · right; right; right
          exact ⟨hs, st, en, rfl, rfl, by omega,
            by simp [extract_json_array, hs, hst, hen, hle]⟩

/-- C4: the error cases of `extract_json_array`, in the order the source checks
them: `NotAString` exactly for non-string input; `EmptyInput` exactly for the
empty string; `NoBracketsFound` exactly for a nonempty string missing `[` or
`]`; `MalformedRange` exactly when both brackets exist but the first `[` is at
or after the last `]`; in every other case the call succeeds. -/
theorem extract_error_characterization :
    (∀ v : PyVal, extract_json_array v = Except.error ExtractErr.NotAString ↔ v = PyVal.nonStr)
    ∧ (∀ s : List Char,
        extract_json_array (PyVal.str s) = Except.error ExtractErr.EmptyInput ↔ s = [])
    ∧ (∀ s : List Char,
        extract_json_array (PyVal.str s) = Except.error ExtractErr.NoBracketsFound ↔
          (s ≠ [] ∧ ('[' ∉ s ∨ ']' ∉ s)))
    ∧ (∀ s : List Char,
        extract_json_array (PyVal.str s) = Except.error ExtractErr.MalformedRange ↔
          (s ≠ [] ∧ ∃ st en, s.findIdx? (fun x => x == '[') = some st
            ∧ rfindIdx ']' s = some en ∧ en ≤ st))
    ∧ (∀ s : List Char,
        (∃ r, extract_json_array (PyVal.str s) = Except.ok r) ↔
          (s ≠ [] ∧ ∃ st en, s.findIdx? (fun x => x == '[') = some st
            ∧ rfindIdx ']' s = some en ∧ st < en)) := by
  refine ⟨?_, ?_, ?_, ?_, ?_⟩
  · intro v
    cases v with
    | nonStr => simp [extract_json_array]
    | str s =>
      rcases extract_str_cases s with ⟨_, he⟩ | ⟨_, _, he⟩ | ⟨_, _, _, _, _, _, he⟩
        | ⟨_, _, _, _, _, _, he⟩ <;> rw [he] <;> simp
  · intro s
    rcases extract_str_cases s with ⟨hs, he⟩ | ⟨hs, _, he⟩ | ⟨hs, _, _, _, _, _, he⟩
      | ⟨hs, _, _, _, _, _, he⟩ <;> rw [he] <;> simp [hs]
  · intro s
    rcases extract_str_cases s with ⟨hs, he⟩ | ⟨hs, hnone, he⟩
      | ⟨hs, st, en, hst, hen, _, he⟩ | ⟨hs, st, en, hst, hen, _, he⟩ <;> rw [he] <;> simp [hs]
    · rcases hnone with hn | hn
      · exact Or.inl (findIdx_none_iff.mp hn)
      · exact Or.inr (rfindIdx_none_iff.mp hn)
    · exact ⟨mem_of_findIdx hst, mem_of_rfindIdx hen⟩
    · exact ⟨mem_of_findIdx hst, mem_of_rfindIdx hen⟩
  · intro s
    rcases extract_str_cases s with ⟨hs, he⟩ | ⟨hs, hnone, he⟩
      | ⟨hs, st, en, hst, hen, hle, he⟩ | ⟨hs, st, en, hst, hen, hlt, he⟩ <;> rw [he]
    · constructor
      · intro h; exact absurd h (by simp)
      · rintro ⟨hne, -⟩; exact absurd hs hne
    · constructor
      · intro h; exact absurd h (by simp)
      · rintro ⟨-, st, en, hst, hen, -⟩
        rcases hnone with hn | hn
        · rw [hn] at hst; cases hst
        · rw [hn] at hen; cases hen
    · constructor
      · intro _; exact ⟨hs, st, en, hst, hen, hle⟩
      · intro _; rfl
    · constructor
      · intro h; exact absurd h (by simp)
      · rintro ⟨-, st', en', hst', hen', hle'⟩
        rw [hst] at hst'
        rw [hen] at hen'
        have h1 := Option.some.inj hst'
        have h2 := Option.some.inj hen'
        exfalso
        omega
  · intro s
    rcases extract_str_cases s with ⟨hs, he⟩ | ⟨hs, hnone, he⟩
      | ⟨hs, st, en, hst, hen, hle, he⟩ | ⟨hs, st, en, hst, hen, hlt, he⟩ <;> rw [he]
    · constructor
      · rintro ⟨r, hr⟩; exact absurd hr (by simp)
      · rintro ⟨hne, -⟩; exact absurd hs hne
    · constructor
      · rintro ⟨r, hr⟩; exact absurd hr (by simp)
      · rintro ⟨-, st, en, hst, hen, -⟩
        rcases hnone with hn | hn
        · rw [hn] at hst; cases hst
        · rw [hn] at hen; cases hen
    · constructor
      · rintro ⟨r, hr⟩; exact absurd hr (by simp)
      · rintro ⟨-, st', en', hst', hen', hlt'⟩
        rw [hst] at hst'
        rw [hen] at hen'
        have h1 := Option.some.inj hst'
        have h2 := Option.some.inj hen'
        exfalso
        omega
    · constructor
      · intro _; exact ⟨hs, st, en, hst, hen, hlt⟩
      · intro _; exact ⟨_, rfl⟩

/-- A string that begins with `[`, ends with `]`, and has length at least 2 is
a fixed point of `extract_json_array`. -/
theorem extract_of_bracket_ends {r : List Char} (hlen : 2 ≤ r.length)
    (h0 : r[0]? = some '[') (hL : r.getLast? = some ']') :
    extract_json_array (PyVal.str r) = Except.ok r := by
  rcases r with _ | ⟨c, r'⟩
  · simp at hlen
  · have hc : c = '[' := by simpa using h0
    subst hc
    have hhead : ('[' :: r').reverse.head? = some ']' := by
      rw [List.head?_reverse]
      exact hL
    rcases hrevc : ('[' :: r').reverse with _ | ⟨d, rest⟩
    · exact absurd hrevc (by simp)
    · rw [hrevc] at hhead
      have hd : d = ']' := by simpa using hhead
      subst hd
      have hfind : (('[' :: r').findIdx? (fun x => x == '[')) = some 0 := by
        simp [List.findIdx?_cons]
      have hrfind : rfindIdx ']' ('[' :: r') = some (('[' :: r').length - 1) := by
        unfold rfindIdx
        rw [hrevc]
        simp
      have hne : ('[' :: r') ≠ [] := by simp
      have hred : extract_json_array (PyVal.str ('[' :: r'))
          = if ('[' :: r') = [] then Except.error ExtractErr.EmptyInput
            else if ('[' :: r').length - 1 ≤ 0 then Except.error ExtractErr.MalformedRange
            else Except.ok ((('[' :: r').drop 0).take (('[' :: r').length - 1 + 1 - 0)) := by
        simp only [extract_json_array, hfind, hrfind]
      rw [hred, if_neg hne, if_neg (by simp only [List.length_cons] at hlen ⊢; omega)]
      have hl : ('[' :: r').length - 1 + 1 - 0 = ('[' :: r').length := by
        simp
      rw [List.drop_zero, hl, List.take_length]

/-- C10: `extract_json_array` is idempotent on its successes: if it succeeds
with result `r`, applying it again to `r` succeeds and returns `r` itself. -/
theorem extract_idempotent_on_success (s r : List Char)
    (h : extract_json_array (PyVal.str s) = Except.ok r) :
    extract_json_array (PyVal.str r) = Except.ok r := by
  rcases extract_str_cases s with ⟨_, he⟩ | ⟨_, _, he⟩ | ⟨_, _, _, _, _, _, he⟩
    | ⟨_, st, en, hst, hen, hlt, he⟩
  · rw [he] at h; exact absurd h (by simp)
  · rw [he] at h; exact absurd h (by simp)
  · rw [he] at h; exact absurd h (by simp)
  · rw [he] at h
    have hr : r = (s.drop st).take (en + 1 - st) := by
      simp only [Except.ok.injEq] at h
      exact h.symm
    subst hr
    obtain ⟨hlen, h0, hL, _⟩ := slice_props hst hen hlt
    exact extract_of_bracket_ends (by omega) h0 hL

/-- C10 witness: extracting from `"x[1]y"` yields `"[1]"`, and extracting again
from `"[1]"` returns it unchanged. -/
theorem extract_idempotent_on_success_witness :
    extract_json_array (PyVal.str (String.toList "[1]")) =
      Except.ok (String.toList "[1]") :=
  extract_idempotent_on_success (String.toList "x[1]y") (String.toList "[1]") (by rfl)

/-! ## Batch Embedder (src/src/core/embeddings.py)

`RateLimitedEmbeddings.embed_documents` slices `texts` into batches of
`batch_size`, embeds each batch through `_embed_batch` (the provider call
decorated with `retry(stop_after_attempt(3), wait_exponential(multiplier=1,
min=2, max=10))` and preceded by a `time.sleep(0.1)` throttle), extends the
result with each batch result, and sleeps `delay_between_batches` whenever
another batch follows. Side effects are recorded as an explicit event trace. -/

/-- An embedding: an ordered numeric vector. -/
abbrev Emb := List ℚ

/-- Behaviour of the underlying provider `super().embed_documents`: the k-th
provider call (counted globally across the whole `embed_documents` call) on a
batch either returns embeddings (`some`) or raises (`none`). -/
abbrev Oracle := Nat → List String → Option (List Emb)

/-- Observable effects of `embed_documents`: the fixed throttle sleep at the top
of `_embed_batch`, a provider call (with its batch and whether it succeeded), a
retry backoff wait, and the inter-batch delay sleep. -/
inductive Ev where
  | throttle
  | call (batch : List String) (ok : Bool)
  | wait (w : ℚ)
  | pause (d : ℚ)
deriving DecidableEq, Repr

/-- Modelled from the spec: tenacity's `wait_exponential(multiplier, min, max)`
is not part of the repository; per the spec, the wait before retry attempt `k`
is `multiplier * 2^(k-1)` capped at `max` and bounded below by `min`. -/
def retryWait (mult minW maxW : ℚ) (k : Nat) : ℚ :=
  max minW (min maxW (mult * 2 ^ (k - 1)))

/-- Attempt loop of `_embed_batch`: each attempt sleeps the 0.1 s throttle and
calls the provider; on an exception it waits `retryWait 1 2 10 (attempt + 1)`
and retries, up to `fuel` further attempts. Returns the result (`none` once all
attempts fail), the updated provider-call count, and the event trace. -/
def embedBatchGo (orac : Oracle) (batch : List String) :
    Nat → Nat → Nat → Option (List Emb) × Nat × List Ev
  | cnt, _, 0 => (none, cnt, [])
  | cnt, attempt, fuel + 1 =>
    match orac cnt batch with
    | some r => (some r, cnt + 1, [Ev.throttle, Ev.call batch true])
    | none =>
      if fuel = 0 then (none, cnt + 1, [Ev.throttle, Ev.call batch false])
      else
        let rest := embedBatchGo orac batch (cnt + 1) (attempt + 1) fuel
        (rest.1, rest.2.1,
          Ev.throttle :: Ev.call batch false ::
            Ev.wait (retryWait 1 2 10 (attempt + 1)) :: rest.2.2)

/-- `_embed_batch` (src/src/core/embeddings.py, lines 68-87): the provider call
under `retry(stop_after_attempt(3), wait_exponential(multiplier=1, min=2, max=10))`. -/
def embed_batch (orac : Oracle) (cnt : Nat) (batch : List String) :
    Option (List Emb) × Nat × List Ev :=
  embedBatchGo orac batch cnt 1 3

/-- Iterations of `for i in range(0, len(texts), batch_size)` producing the
slices `texts[i:i + batch_size]`; `fuel` bounds the number of iterations. -/
def pyBatchesGo (bs : Nat) : Nat → List String → List (List String)
  | _, [] => []
  | 0, _ => []
  | fuel + 1, l => l.take bs :: pyBatchesGo bs fuel (l.drop bs)

/-- The batches `texts[i:i + batch_size]` of `embed_documents`
(src/src/core/embeddings.py, line 105). `batch_size = 0` would make `range`
raise in Python and is mapped to no batches; the claims assume a positive
`batch_size`. -/
def pyBatches (bs : Nat) (l : List String) : List (List String) :=
  if bs = 0 then [] else pyBatchesGo bs l.length l

/-- Body of the `embed_documents` loop over the batches: embed each batch via
`embed_batch`, extend the result, and sleep `delay_between_batches` when
another batch follows (`i + batch_size < len(texts)`); a batch whose attempts
are exhausted aborts the whole call with no partial result. -/
def embedDocsGo (orac : Oracle) (d : ℚ) :
    Nat → List (List String) → Option (List Emb) × Nat × List Ev
  | cnt, [] => (some [], cnt, [])
  | cnt, b :: rest =>
    match embed_batch orac cnt b with
    | (none, cnt2, evs) => (none, cnt2, evs)
    | (some em, cnt2, evs) =>
      match rest with
      | [] => (some em, cnt2, evs)
      | r :: rs =>
        match embedDocsGo orac d cnt2 (r :: rs) with
        | (none, cnt3, evs2) => (none, cnt3, evs ++ Ev.pause d :: evs2)
        | (some em2, cnt3, evs2) => (some (em ++ em2), cnt3, evs ++ Ev.pause d :: evs2)

/-- `embed_documents` (src/src/core/embeddings.py, lines 89-122): batch the
texts and embed batch by batch, returning the concatenated embeddings, the
number of provider calls issued, and the trace of observable effects. -/
def embed_documents (orac : Oracle) (bs : Nat) (d : ℚ) (texts : List String) :
    Option (List Emb) × Nat × List Ev :=
  embedDocsGo orac d 0 (pyBatches bs texts)

/-- Expected effect trace of a fully successful run: one throttle sleep and one
successful provider call per batch, in batch order, with an inter-batch pause
between consecutive batches and no retry wait anywhere. -/
def okTrace (d : ℚ) : List (List String) → List Ev
  | [] => []
  | [b] => [Ev.throttle, Ev.call b true]
  | b :: rest => Ev.throttle :: Ev.call b true :: Ev.pause d :: okTrace d rest

/-- Effect trace of a batch whose three attempts all raise: three throttled
failing calls separated by the two backoff waits, and nothing afterwards. -/
def failTrace (b : List String) : List Ev :=
  [Ev.throttle, Ev.call b false, Ev.wait (retryWait 1 2 10 2),
   Ev.throttle, Ev.call b false, Ev.wait (retryWait 1 2 10 3),
   Ev.throttle, Ev.call b false]

theorem pyBatchesGo_join {bs : Nat} (hbs : 0 < bs) :
    ∀ (fuel : Nat) (l : List String), l.length ≤ fuel →
      (pyBatchesGo bs fuel l).flatten = l := by
  intro fuel
  induction fuel with
  | zero =>
    intro l hl
    have : l = [] := List.length_eq_zero.mp (by omega)
    subst this
    rfl
  | succ n ih =>
    intro l hl
    cases l with
    | nil => rfl
    | cons x xs =>
      have hunf : pyBatchesGo bs (n + 1) (x :: xs)
          = List.take bs (x :: xs) :: pyBatchesGo bs n (List.drop bs (x :: xs)) := rfl
      rw [hunf, List.flatten_cons, ih (List.drop bs (x :: xs))
        (by rw [List.length_drop]; simp only [List.length_cons] at hl ⊢; omega)]
      exact List.take_append_drop bs (x :: xs)

theorem pyBatches_join {bs : Nat} (hbs : 0 < bs) (l : List String) :
    (pyBatches bs l).flatten = l := by
  unfold pyBatches
  rw [if_neg (by omega)]
  exact pyBatchesGo_join hbs l.length l le_rfl

theorem pyBatchesGo_mem {bs : Nat} (hbs : 0 < bs) :
    ∀ (fuel : Nat) (l : List String) (b : List String), b ∈ pyBatchesGo bs fuel l →
      b ≠ [] ∧ b.length ≤ bs := by
  intro fuel
  induction fuel with
  | zero => intro l b hb; cases l <;> simp [pyBatchesGo] at hb
  | succ n ih =>
    intro l b hb
    cases l with
    | nil => simp [pyBatchesGo] at hb
    | cons x xs =>
      have hunf : pyBatchesGo bs (n + 1) (x :: xs)
          = List.take bs (x :: xs) :: pyBatchesGo bs n (List.drop bs (x :: xs)) := rfl
      rw [hunf] at hb
      rcases List.mem_cons.mp hb with hb | hb
      · subst hb
        refine ⟨?_, by rw [List.length_take]; omega⟩
        cases bs with
        | zero => omega
        | succ m => simp
      · exact ih _ b hb

theorem pyBatches_mem {bs : Nat} (hbs : 0 < bs) {l b : List String}
    (hb : b ∈ pyBatches bs l) : b ≠ [] ∧ b.length ≤ bs := by
  unfold pyBatches at hb
  rw [if_neg (by omega)] at hb
  exact pyBatchesGo_mem hbs l.length l b hb

theorem embed_batch_ok {orac : Oracle} {cnt : Nat} {b : List String} {r : List Emb}
    (h : orac cnt b = some r) :
    embed_batch orac cnt b = (some r, cnt + 1, [Ev.throttle, Ev.call b true]) := by
  unfold embed_batch embedBatchGo
  rw [h]

theorem embed_batch_fail {orac : Oracle} {cnt : Nat} {b : List String}
    (h0 : orac cnt b = none) (h1 : orac (cnt + 1) b = none)
    (h2 : orac (cnt + 2) b = none) :
    embed_batch orac cnt b = (none, cnt + 3, failTrace b) := by
  unfold embed_batch embedBatchGo
  rw [h0]
  simp only [if_neg (by omega : ¬(2 : Nat) = 0)]
  unfold embedBatchGo
  rw [h1]
  simp only [if_neg (by omega : ¬(1 : Nat) = 0)]
  unfold embedBatchGo
  rw [show cnt + 1 + 1 = cnt + 2 from rfl, h2]
  simp [failTrace]

theorem embedDocsGo_cons_cons {orac : Oracle} {d : ℚ} {cnt cnt' : Nat}
    {b r : List String} {rs : List (List String)} {em : List Emb} {evs : List Ev}
    (hb : embed_batch orac cnt b = (some em, cnt', evs)) :
    embedDocsGo orac d cnt (b :: r :: rs) =
      match embedDocsGo orac d cnt' (r :: rs) with
      | (none, cnt3, evs2) => (none, cnt3, evs ++ Ev.pause d :: evs2)
      | (some em2, cnt3, evs2) => (some (em ++ em2), cnt3, evs ++ Ev.pause d :: evs2) := by
  rw [embedDocsGo, hb]

theorem embedDocsGo_all_ok {orac : Oracle} {d : ℚ} {g : String → Emb}
    (hok : ∀ k b, orac k b = some (List.map g b)) :
    ∀ (bl : List (List String)) (cnt : Nat),
      embedDocsGo orac d cnt bl =
        (some (List.map g bl.flatten), cnt + bl.length, okTrace d bl) := by
  intro bl
  induction bl with
  | nil => intro cnt; simp [embedDocsGo, okTrace]
  | cons b rest ih =>
    intro cnt
    have hb := embed_batch_ok (hok cnt b)
    cases rest with
    | nil =>
      rw [embedDocsGo, hb]
      simp [okTrace]
    | cons r rs =>
      rw [embedDocsGo_cons_cons hb, ih (cnt + 1)]
      simp only [List.flatten_cons, List.map_append, okTrace, List.length_cons,
        Prod.mk.injEq]
      refine ⟨trivial, by omega, rfl⟩

/-- C1: with a provider that embeds each text of a batch (`g` per text),
`embed_documents` partitions the input into consecutive batches of at most
`batch_size` items (all batches nonempty, concatenating back to the input),
issues exactly one successful provider call per batch in input order (the
trace `okTrace`), and returns the embeddings `texts.map g`, so the result at
position `i` is the provider's embedding of `texts[i]` and the lengths agree. -/
theorem embed_documents_batches_in_order (bs : Nat) (d : ℚ) (g : String → Emb)
    (orac : Oracle) (texts : List String) (hbs : 0 < bs)
    (hok : ∀ k b, orac k b = some (List.map g b)) :
    embed_documents orac bs d texts =
      (some (List.map g texts), (pyBatches bs texts).length,
        okTrace d (pyBatches bs texts))
    ∧ (∀ b ∈ pyBatches bs texts, b ≠ [] ∧ b.length ≤ bs)
    ∧ (pyBatches bs texts).flatten = texts := by
  refine ⟨?_, fun b hb => pyBatches_mem hbs hb, pyBatches_join hbs texts⟩
  unfold embed_documents
  rw [embedDocsGo_all_ok hok (pyBatches bs texts) 0, pyBatches_join hbs texts]
  simp

/-- C1 witness: batch size 2 over three texts gives batches
`[["a", "b"], ["c"]]`, two provider calls in order, and the per-text
embeddings in input order. -/
theorem embed_documents_batches_in_order_witness :
    embed_documents (fun _ b => some (List.map (fun t => [(t.length : ℚ)]) b)) 2 1
        ["a", "bb", "ccc"] =
      (some [[(1 : ℚ)], [(2 : ℚ)], [(3 : ℚ)]], 2,
        [Ev.throttle, Ev.call ["a", "bb"] true, Ev.pause 1,
         Ev.throttle, Ev.call ["ccc"] true]) := by
  have h := (embed_documents_batches_in_order 2 1 (fun t => [(t.length : ℚ)])
    (fun _ b => some (List.map (fun t => [(t.length : ℚ)]) b))
    ["a", "bb", "ccc"] (by decide) (fun _ _ => rfl)).1
  refine h.trans ?_
  simp [pyBatches, pyBatchesGo, okTrace]
  decide

theorem embedDocsGo_first_bad {d : ℚ} {g : String → Emb} {bad : List String}
    (orac : Oracle)
    (horac : orac = fun _ b => if b = bad then none else some (List.map g b)) :
    ∀ (pre post : List (List String)) (cnt : Nat), bad ∉ pre →
      embedDocsGo orac d cnt (pre ++ bad :: post) =
        (none, cnt + (pre.length + 3),
          (pre.map (fun b => [Ev.throttle, Ev.call b true, Ev.pause d])).flatten
            ++ failTrace bad) := by
  intro pre
  induction pre with
  | nil =>
    intro post cnt _
    have hfail : embed_batch orac cnt bad = (none, cnt + 3, failTrace bad) :=
      embed_batch_fail (by rw [horac]; simp) (by rw [horac]; simp) (by rw [horac]; simp)
    rw [List.nil_append, embedDocsGo, hfail]
    simp
  | cons p pre' ih =>
    intro post cnt hnot
    rw [List.mem_cons] at hnot
    push_neg at hnot
    have hp : p ≠ bad := fun h => hnot.1 h.symm
    have hb : embed_batch orac cnt p
        = (some (List.map g p), cnt + 1, [Ev.throttle, Ev.call p true]) := by
      refine embed_batch_ok ?_
      rw [horac]
      simp [hp]
    obtain ⟨y, ys, hys⟩ : ∃ y ys, pre' ++ bad :: post = y :: ys := by
      cases h : pre' ++ bad :: post with
      | nil => exact absurd h (by simp)
      | cons y ys => exact ⟨y, ys, rfl⟩
    rw [List.cons_append, hys, embedDocsGo_cons_cons hb, ← hys,
      ih post (cnt + 1) hnot.2]
    simp only [List.map_cons, List.flatten_cons, List.length_cons, Prod.mk.injEq,
      List.cons_append, List.nil_append, List.append_assoc]
    exact ⟨by trivial, by omega, by trivial⟩

/-- C2: if every provider call on some batch raises (the batch `bad`, every
earlier batch succeeding), `embed_documents` stops after exactly 3 attempts on
that batch (the trace ends in `failTrace bad`: three failing calls and nothing
after them) and the whole call fails with `none`: no partial results, and no
successfully embedded earlier batch is returned. -/
theorem embed_documents_all_attempts_fail (bs : Nat) (d : ℚ) (g : String → Emb)
    (bad : List String) (texts : List String) (pre post : List (List String))
    (_hbs : 0 < bs)
    (hsplit : pyBatches bs texts = pre ++ bad :: post)
    (hpre : bad ∉ pre) :
    embed_documents (fun _ b => if b = bad then none else some (List.map g b))
        bs d texts =
      (none, pre.length + 3,
        (pre.map (fun b => [Ev.throttle, Ev.call b true, Ev.pause d])).flatten
          ++ failTrace bad) := by
  unfold embed_documents
  rw [hsplit, embedDocsGo_first_bad _ rfl pre post 0 hpre]
  simp

/-- C2 witness: batch size 2 over `["a", "b", "c"]` with a provider that always
raises on the second batch `["c"]`: the first batch succeeds, the second is
attempted exactly 3 times, and the call fails with no partial result. -/
theorem embed_documents_all_attempts_fail_witness :
    embed_documents (fun _ b => if b = ["c"] then none
        else some (List.map (fun _ => [(1 : ℚ)]) b)) 2 1 ["a", "b", "c"] =
      (none, 4,
        [Ev.throttle, Ev.call ["a", "b"] true, Ev.pause 1] ++ failTrace ["c"]) := by
  have h := embed_documents_all_attempts_fail 2 1 (fun _ => [(1 : ℚ)]) ["c"]
    ["a", "b", "c"] [["a", "b"]] [] (by decide) (by rfl) (by decide)
  refine h.trans ?_
  simp

theorem embed_batch_fail_ok {orac : Oracle} {cnt : Nat} {b : List String}
    {r : List Emb} (h0 : orac cnt b = none) (h1 : orac (cnt + 1) b = some r) :
    embed_batch orac cnt b =
      (some r, cnt + 2,
        [Ev.throttle, Ev.call b false, Ev.wait (retryWait 1 2 10 2),
         Ev.throttle, Ev.call b true]) := by
  unfold embed_batch embedBatchGo
  rw [h0]
  simp only [if_neg (by omega : ¬(2 : Nat) = 0)]
  unfold embedBatchGo
  rw [h1]

theorem embed_batch_fail_fail_ok {orac : Oracle} {cnt : Nat} {b : List String}
    {r : List Emb} (h0 : orac cnt b = none) (h1 : orac (cnt + 1) b = none)
    (h2 : orac (cnt + 2) b = some r) :
    embed_batch orac cnt b =
      (some r, cnt + 3,
        [Ev.throttle, Ev.call b false, Ev.wait (retryWait 1 2 10 2),
         Ev.throttle, Ev.call b false, Ev.wait (retryWait 1 2 10 3),
         Ev.throttle, Ev.call b true]) := by
  unfold embed_batch embedBatchGo
  rw [h0]
  simp only [if_neg (by omega : ¬(2 : Nat) = 0)]
  unfold embedBatchGo
  rw [h1]
  simp only [if_neg (by omega : ¬(1 : Nat) = 0)]
  unfold embedBatchGo
  rw [show cnt + 1 + 1 = cnt + 2 from rfl, h2]

/-- Expected result of one `_embed_batch` call, as a function of the outcomes
of the first three provider calls. -/
def batchResult (o1 o2 o3 : Option (List Emb)) : Option (List Emb) :=
  match o1 with
  | some r => some r
  | none =>
    match o2 with
    | some r => some r
    | none => o3

/-- Number of provider calls one `_embed_batch` call issues, as a function of
the outcomes of the first two provider calls. -/
def batchCalls (o1 o2 : Option (List Emb)) : Nat :=
  match o1 with
  | some _ => 1
  | none =>
    match o2 with
    | some _ => 2
    | none => 3

/-- Expected effect trace of one `_embed_batch` call: no backoff wait before
attempt 1, the wait `retryWait 1 2 10 k` before attempt `k` for `k = 2, 3`,
and at most 3 attempts. -/
def batchTrace (b : List String) (o1 o2 o3 : Option (List Emb)) : List Ev :=
  match o1 with
  | some _ => [Ev.throttle, Ev.call b true]
  | none =>
    match o2 with
    | some _ => [Ev.throttle, Ev.call b false, Ev.wait (retryWait 1 2 10 2),
                 Ev.throttle, Ev.call b true]
    | none =>
      match o3 with
      | some _ => [Ev.throttle, Ev.call b false, Ev.wait (retryWait 1 2 10 2),
                   Ev.throttle, Ev.call b false, Ev.wait (retryWait 1 2 10 3),
                   Ev.throttle, Ev.call b true]
      | none => failTrace b

/-- C6: the retry schedule of `_embed_batch`, for every provider behaviour: the
first attempt is issued with no wait event before it, the backoff wait before
each subsequent attempt `k` is `retryWait 1 2 10 k` — i.e.
`min(max_wait, multiplier * 2^(k-1))` bounded below by the minimum wait, with
`multiplier = 1`, `min = 2`, `max = 10` as configured in the source — and at
most 3 attempts are made in total. -/
theorem embed_batch_backoff_schedule (orac : Oracle) (cnt : Nat) (b : List String) :
    embed_batch orac cnt b =
      (batchResult (orac cnt b) (orac (cnt + 1) b) (orac (cnt + 2) b),
       cnt + batchCalls (orac cnt b) (orac (cnt + 1) b),
       batchTrace b (orac cnt b) (orac (cnt + 1) b) (orac (cnt + 2) b)) := by
  rcases h1 : orac cnt b with _ | r1
  · rcases h2 : orac (cnt + 1) b with _ | r2
    · rcases h3 : orac (cnt + 2) b with _ | r3
      · rw [embed_batch_fail h1 h2 h3]
        simp [batchResult, batchCalls, batchTrace]
      · rw [embed_batch_fail_fail_ok h1 h2 h3]
        simp [batchResult, batchCalls, batchTrace]
    · rw [embed_batch_fail_ok h1 h2]
      simp [batchResult, batchCalls, batchTrace]
  · rw [embed_batch_ok h1]
    simp [batchResult, batchCalls, batchTrace]

/-- C8: `embed_documents` applied to the empty sequence returns the empty
sequence, issues zero provider calls, and performs no sleeps or waits (empty
effect trace). -/
theorem embed_documents_empty (orac : Oracle) (bs : Nat) (d : ℚ) :
    embed_documents orac bs d [] = (some [], 0, []) := by
  unfold embed_documents pyBatches
  by_cases h : bs = 0
  · rw [if_pos h]
    rfl
  · rw [if_neg h]
    rfl

/-! ## Chunker (spec §4.1)

The repository delegates text splitting to the external
`RecursiveCharacterTextSplitter` configured in src/src/core/qa_system.py
(lines 61-66); only its configuration (`chunk_size`, `chunk_overlap`) is
repository code, so the Chunker itself is modelled from the spec. -/

/-- Error taxonomy of the Chunker per the spec. -/
inductive ChunkErr where
  | InvalidConfiguration
deriving DecidableEq, Repr

/-- Modelled from the spec: the Chunker's split loop — emit a chunk of
`chunk_size` characters, advance by `chunk_size - overlap` positions, and emit
the final (possibly shorter) chunk once the remaining text fits in one chunk.
`fuel` bounds the number of chunks. -/
def chunkGo (s o : Nat) : Nat → List Char → List (List Char)
  | _, [] => []
  | 0, _ => []
  | fuel + 1, l =>
    if l.length ≤ s then [l]
    else l.take s :: chunkGo s o fuel (l.drop (s - o))

/-- Modelled from the spec: `Chunker.split(document, chunk_size, overlap)`
(spec §4.1) — fails with `InvalidConfiguration` if `overlap >= chunk_size` or
`chunk_size <= 0`, otherwise yields the chunk sequence; the splitting itself is
performed by an external library and is absent from src/. -/
def chunkerSplit (chunk_size overlap : Int) (text : List Char) :
    Except ChunkErr (List (List Char)) :=
  if overlap ≥ chunk_size ∨ chunk_size ≤ 0 then
    Except.error ChunkErr.InvalidConfiguration
  else
    Except.ok (chunkGo chunk_size.toNat overlap.toNat (text.length + 1) text)

/-- Concatenation of the chunks with the `o` characters each chunk after the
first shares with its predecessor removed. -/
def joinOverlap (o : Nat) : List (List Char) → List Char
  | [] => []
  | c :: rest => c ++ (rest.map (List.drop o)).flatten

theorem chunkGo_getElem {s o : Nat} (ho : o < s) :
    ∀ (fuel : Nat) (l : List Char) (i : Nat), l.length < fuel →
      (hi : i < (chunkGo s o fuel l).length) →
      (chunkGo s o fuel l)[i] = (l.drop (i * (s - o))).take s := by
  intro fuel
  induction fuel with
  | zero => intro l i hfl hi; omega
  | succ n ih =>
    intro l i hfl hi
    cases l with
    | nil => simp [chunkGo] at hi
    | cons x xs =>
      have hunf : chunkGo s o (n + 1) (x :: xs)
          = if (x :: xs).length ≤ s then [x :: xs]
            else (x :: xs).take s :: chunkGo s o n ((x :: xs).drop (s - o)) := rfl
      simp only [hunf] at hi ⊢
      by_cases hle : (x :: xs).length ≤ s
      · simp only [if_pos hle] at hi ⊢
        have hi0 : i = 0 := by simpa using hi
        subst hi0
        simp [List.take_of_length_le hle]
      · simp only [if_neg hle] at hi ⊢
        cases i with
        | zero => simp
        | succ i =>
          rw [List.getElem_cons_succ,
            ih ((x :: xs).drop (s - o)) i
              (by rw [List.length_drop]; simp only [List.length_cons] at hfl ⊢; omega)
              (by simpa using hi),
            List.drop_drop]
          congr 2
          rw [Nat.succ_mul]
          omega

theorem chunkGo_full_length {s o : Nat} (ho : o < s) :
    ∀ (fuel : Nat) (l : List Char) (i : Nat), l.length < fuel →
      (hi : i + 1 < (chunkGo s o fuel l).length) →
      ((chunkGo s o fuel l)[i]).length = s := by
  intro fuel
  induction fuel with
  | zero => intro l i hfl hi; omega
  | succ n ih =>
    intro l i hfl hi
    cases l with
    | nil => simp [chunkGo] at hi
    | cons x xs =>
      have hunf : chunkGo s o (n + 1) (x :: xs)
          = if (x :: xs).length ≤ s then [x :: xs]
            else (x :: xs).take s :: chunkGo s o n ((x :: xs).drop (s - o)) := rfl
      simp only [hunf] at hi ⊢
      by_cases hle : (x :: xs).length ≤ s
      · rw [if_pos hle] at hi
        simp at hi
      · simp only [if_neg hle] at hi ⊢
        cases i with
        | zero =>
          rw [List.getElem_cons_zero, List.length_take]
          simp only [List.length_cons] at hle ⊢
          omega
        | succ i =>
          rw [List.getElem_cons_succ]
          exact ih ((x :: xs).drop (s - o)) i
            (by rw [List.length_drop]; simp only [List.length_cons] at hfl ⊢; omega)
            (by simpa using hi)

theorem chunkGo_head {s o : Nat} :
    ∀ (fuel : Nat) (l : List Char), l ≠ [] → 0 < fuel →
      ∃ rest, chunkGo s o fuel l = l.take s :: rest := by
  intro fuel l hne hf
  cases fuel with
  | zero => omega
  | succ n =>
    cases l with
    | nil => exact absurd rfl hne
    | cons x xs =>
      have hunf : chunkGo s o (n + 1) (x :: xs)
          = if (x :: xs).length ≤ s then [x :: xs]
            else (x :: xs).take s :: chunkGo s o n ((x :: xs).drop (s - o)) := rfl
      by_cases hle : (x :: xs).length ≤ s
      · exact ⟨[], by rw [hunf, if_pos hle, List.take_of_length_le hle]⟩
      · exact ⟨_, by rw [hunf, if_neg hle]⟩

theorem dropFlatten_eq_drop_joinOverlap {o : Nat} {c : List Char}
    {rest : List (List Char)} (h : o ≤ c.length) :
    ((c :: rest).map (List.drop o)).flatten = (joinOverlap o (c :: rest)).drop o := by
  rw [joinOverlap, List.map_cons, List.flatten_cons, List.drop_append_eq_append_drop]
  have h0 : o - c.length = 0 := by omega
  rw [h0, List.drop_zero]

theorem chunkGo_joinOverlap {s o : Nat} (ho : o < s) :
    ∀ (fuel : Nat) (l : List Char), l.length < fuel →
      joinOverlap o (chunkGo s o fuel l) = l := by
  intro fuel
  induction fuel with
  | zero => intro l hfl; omega
  | succ n ih =>
    intro l hfl
    cases l with
    | nil => rfl
    | cons x xs =>
      have hunf : chunkGo s o (n + 1) (x :: xs)
          = if (x :: xs).length ≤ s then [x :: xs]
            else (x :: xs).take s :: chunkGo s o n ((x :: xs).drop (s - o)) := rfl
      rw [hunf]
      by_cases hle : (x :: xs).length ≤ s
      · rw [if_pos hle]
        simp [joinOverlap]
      · rw [if_neg hle]
        simp only [List.length_cons, not_le] at hle
        have hlen : ((x :: xs).drop (s - o)).length = xs.length + 1 - (s - o) := by
          rw [List.length_drop, List.length_cons]
        have hne : (x :: xs).drop (s - o) ≠ [] := by
          intro h
          rw [h] at hlen
          simp at hlen
          omega
        obtain ⟨rest', hhead⟩ := chunkGo_head n ((x :: xs).drop (s - o)) hne
          (by simp only [List.length_cons] at hfl; omega)
        have hco : o ≤ (((x :: xs).drop (s - o)).take s).length := by
          rw [List.length_take, hlen]
          omega
        rw [joinOverlap, hhead, dropFlatten_eq_drop_joinOverlap hco, ← hhead,
          ih ((x :: xs).drop (s - o))
            (by rw [hlen]; simp only [List.length_cons] at hfl; omega),
          List.drop_drop]
        have hso : s - o + o = s := by omega
        rw [hso, List.take_append_drop]

/-- C5: for `chunk_size > overlap >= 0`, every chunk `i` of the produced split
is the `chunk_size`-character slice of the text starting at position
`i * (chunk_size - overlap)` (so each chunk after the first begins exactly
`chunk_size - overlap` characters after the previous chunk's start), every
chunk but the last has length exactly `chunk_size` (only the final chunk may be
shorter), and concatenating the chunks with the overlaps removed reconstructs
the original text exactly. -/
theorem chunker_split_reconstructs (chunk_size overlap : Int) (text : List Char)
    (cs : List (List Char)) (h0 : 0 ≤ overlap) (h1 : overlap < chunk_size)
    (hs : chunkerSplit chunk_size overlap text = Except.ok cs) :
    (∀ i, (hi : i < cs.length) →
      cs[i] = (text.drop (i * (chunk_size.toNat - overlap.toNat))).take chunk_size.toNat)
    ∧ (∀ i, (hi : i + 1 < cs.length) → (cs[i]).length = chunk_size.toNat)
    ∧ joinOverlap overlap.toNat cs = text := by
  have ho : overlap.toNat < chunk_size.toNat := by omega
  have hcs : cs = chunkGo chunk_size.toNat overlap.toNat (text.length + 1) text := by
    unfold chunkerSplit at hs
    rw [if_neg (by omega)] at hs
    simpa using hs.symm
  subst hcs
  refine ⟨?_, ?_, ?_⟩
  · intro i hi
    exact chunkGo_getElem ho (text.length + 1) text i (by omega) hi
  · intro i hi
    exact chunkGo_full_length ho (text.length + 1) text i (by omega) hi
  · exact chunkGo_joinOverlap ho (text.length + 1) text (by omega)

/-- C5 witness: with `chunk_size = 5` and `overlap = 2`, the text
`"abcdefghij"` splits into `["abcde", "defgh", "ghij"]`, and removing the
2-character overlaps reconstructs the text exactly. -/
theorem chunker_split_reconstructs_witness :
    joinOverlap 2 [String.toList "abcde", String.toList "defgh",
      String.toList "ghij"] = String.toList "abcdefghij" :=
  (chunker_split_reconstructs 5 2 (String.toList "abcdefghij")
    [String.toList "abcde", String.toList "defgh", String.toList "ghij"]
    (by decide) (by decide) (by rfl)).2.2

/-- C7: the Chunker fails with `InvalidConfiguration` exactly when
`overlap >= chunk_size` or `chunk_size <= 0`, and for every other configuration
it succeeds (no other error exists for valid parameters). -/
theorem chunker_split_invalid_config (chunk_size overlap : Int) (text : List Char) :
    (chunkerSplit chunk_size overlap text = Except.error ChunkErr.InvalidConfiguration
      ↔ (overlap ≥ chunk_size ∨ chunk_size ≤ 0))
    ∧ ((∃ cs, chunkerSplit chunk_size overlap text = Except.ok cs)
      ↔ ¬(overlap ≥ chunk_size ∨ chunk_size ≤ 0)) := by
  unfold chunkerSplit
  by_cases h : overlap ≥ chunk_size ∨ chunk_size ≤ 0
  · rw [if_pos h]
    refine ⟨by simp [h], ?_, ?_⟩
    · rintro ⟨cs, hcs⟩
      exact absurd hcs (by simp)
    · intro hn
      exact absurd h hn
  · rw [if_neg h]
    refine ⟨⟨?_, ?_⟩, by simp [h]⟩
    · intro hcs
      exact absurd hcs (by simp)
    · intro hh
      exact absurd hh h

/-! ## Geography agent (src/src/agents/geography_agent.py)

`GeographyAgent.get_coordinates` splits its input on `", "`, deduplicates via
`set(locations)` (modelled by `List.dedup`; Python set iteration order is
unspecified and the claim is order-independent), and for each name calls the
geocoder; a name whose lookup raises is skipped by the inner
`except ... continue`, and a name whose result is falsy is skipped by the
`if coords:` guard. -/

/-- One entry of the result: `{"name": loc, "coordinates": [str(c) for c in coords]}`. -/
structure Location where
  name : String
  coordinates : List String
deriving DecidableEq, Repr

/-- `GeographyAgent.get_coordinates` (src/src/agents/geography_agent.py, lines
26-56); `lookup` models `self.locator.coordinates`, with `Except.error` for a
raised exception. The function is total: lookup failures never escape. -/
def get_coordinates (lookup : String → Except Unit (List String)) (text : String) :
    List Location :=
  (List.dedup (text.splitOn ", ")).foldl
    (fun result loc =>
      match lookup loc with
      | Except.error _ => result
      | Except.ok coords =>
        if coords = [] then result else result ++ [⟨loc, coords⟩]) []

/-- Whether a deduplicated name contributes an entry: only when its lookup
succeeds with a non-falsy coordinates value. -/
def keepLocation (lookup : String → Except Unit (List String)) (loc : String) :
    Option Location :=
  match lookup loc with
  | Except.error _ => none
  | Except.ok coords => if coords = [] then none else some ⟨loc, coords⟩

theorem get_coordinates_foldl (lookup : String → Except Unit (List String)) :
    ∀ (l : List String) (acc : List Location),
      l.foldl (fun result loc =>
        match lookup loc with
        | Except.error _ => result
        | Except.ok coords =>
          if coords = [] then result else result ++ [⟨loc, coords⟩]) acc
      = acc ++ l.filterMap (keepLocation lookup) := by
  intro l
  induction l with
  | nil => intro acc; simp
  | cons x xs ih =>
    intro acc
    rcases hx : lookup x with e | c
    · simp only [List.foldl_cons, List.filterMap_cons, keepLocation, hx]
      exact ih acc
    · by_cases hc : c = []
      · simp only [List.foldl_cons, List.filterMap_cons, keepLocation, hx, if_pos hc]
        exact ih acc
      · simp only [List.foldl_cons, List.filterMap_cons, keepLocation, hx, if_neg hc]
        rw [ih (acc ++ [({ name := x, coordinates := c } : Location)])]
        simp

theorem keepLocation_eq_some {lookup : String → Except Unit (List String)}
    {a : String} {l : Location} (h : keepLocation lookup a = some l) :
    l.name = a ∧ lookup a = Except.ok l.coordinates ∧ l.coordinates ≠ [] := by
  unfold keepLocation at h
  rcases ha : lookup a with e | c
  · simp only [ha] at h
    exact absurd h (by simp)
  · simp only [ha] at h
    by_cases hc : c = []
    · rw [if_pos hc] at h
      exact absurd h (by simp)
    · rw [if_neg hc] at h
      have hl : l = ⟨a, c⟩ := by simpa using h.symm
      subst hl
      exact ⟨rfl, rfl, hc⟩

/-- C9: `get_coordinates` silently drops a name whose lookup raises: the
function returns normally (it is total — no error is surfaced), its result is
exactly the deduplicated split names filtered through `keepLocation` (so a
name whose lookup raises contributes no entry), no returned entry carries the
name of a failing lookup, and every name whose lookup succeeded with non-empty
coordinates still gets its entry. -/
theorem get_coordinates_drops_failed_lookups
    (lookup : String → Except Unit (List String)) (text : String) :
    get_coordinates lookup text
      = (List.dedup (text.splitOn ", ")).filterMap (keepLocation lookup)
    ∧ (∀ loc e, lookup loc = Except.error e →
        ∀ l ∈ get_coordinates lookup text, l.name ≠ loc)
    ∧ (∀ loc ∈ List.dedup (text.splitOn ", "), ∀ c, lookup loc = Except.ok c →
        c ≠ [] → Location.mk loc c ∈ get_coordinates lookup text) := by
  have heq : get_coordinates lookup text
      = (List.dedup (text.splitOn ", ")).filterMap (keepLocation lookup) := by
    unfold get_coordinates
    rw [get_coordinates_foldl lookup (List.dedup (text.splitOn ", ")) []]
    simp
  refine ⟨heq, ?_, ?_⟩
  · intro loc e herr l hl
    rw [heq] at hl
    obtain ⟨a, _, ha⟩ := List.mem_filterMap.mp hl
    obtain ⟨hname, hok, _⟩ := keepLocation_eq_some ha
    intro hcontra
    have haloc : a = loc := by rw [← hname, hcontra]
    rw [haloc, herr] at hok
    cases hok
  · intro loc hmem c hok hc
    rw [heq]
    refine List.mem_filterMap.mpr ⟨loc, hmem, ?_⟩
    simp only [keepLocation, hok]
    rw [if_neg hc]

end ReaderAssistant
